import Mathlib

/-!
Verification development for the `cprof` compiler profiler
(`src/__main__.py`). The Python program is shallowly embedded: its pure
computations become Lean functions; the mutable `Header` records shared
between tree nodes become an explicit timing state keyed by header identity;
external processes (the compiler trace fetch, the `/usr/bin/time` harness)
become oracle inputs. Python floats are modelled as exact unnormalized
fractions over `Int` (`Time` below): every operation the program performs on
times (addition, subtraction, multiplication, division, comparison, `max`,
`sum`) is mirrored by the corresponding exact fraction operation, so all
definitions evaluate inside the kernel. Fractions are kept unnormalized;
all times and thresholds occurring in the program have positive
denominators, for which the cross-multiplication order below agrees with
the numeric order.
-/

namespace CProf

/-- Exact fraction model of a Python float. Not normalized; ops keep
denominators positive whenever both inputs have positive denominators. -/
structure Time where
  num : Int
  den : Int
deriving DecidableEq

/-- The integer time `n` (denominator 1). -/
def Time.ofInt (n : Int) : Time := ⟨n, 1⟩

/-- Fraction addition. -/
def tadd (a b : Time) : Time := ⟨a.num * b.den + b.num * a.den, a.den * b.den⟩

/-- Fraction subtraction. -/
def tsub (a b : Time) : Time := ⟨a.num * b.den - b.num * a.den, a.den * b.den⟩

/-- Fraction multiplication. -/
def tmul (a b : Time) : Time := ⟨a.num * b.num, a.den * b.den⟩

/-- Fraction division. -/
def tdiv (a b : Time) : Time := ⟨a.num * b.den, a.den * b.num⟩

/-- Comparison `a < b` by cross multiplication. -/
def tltB (a b : Time) : Bool := decide (a.num * b.den < b.num * a.den)

/-- Comparison `a ≤ b` by cross multiplication. -/
def tleB (a b : Time) : Bool := decide (a.num * b.den ≤ b.num * a.den)

/-- Python `max(a, b)`: `b` when `a < b`, else `a` (ties keep the first
argument, as Python's `max` does). -/
def tmax (a b : Time) : Time := if tltB a b then b else a

/-- Python `sum(l)`: left fold of `+` over the list starting from `0`. -/
def tsum (l : List Time) : Time := l.foldl tadd (Time.ofInt 0)

/-- The timing file written by `/usr/bin/time` and parsed by `timed_run`
(src/__main__.py lines 39-51): exit status of the measured command plus its
resource metrics. -/
structure ProcTiming where
  status : Int
  wall : Time
  user : Time
  sys : Time
  faultMajor : Time
  faultMinor : Time
  rssMax : Time
deriving DecidableEq

/-- The dict `js` returned by `timed_run` (line 54-57): `status` is always
present; the resource fields are populated only when the spawned process
exited zero, in which case `cpu` is set to `sys + user` (line 57). -/
structure Timing where
  status : Int
  wall : Option Time
  user : Option Time
  sys : Option Time
  faultMajor : Option Time
  faultMinor : Option Time
  rssMax : Option Time
  cpu : Option Time
deriving DecidableEq

/-- The dict `{'status': -1}` (line 54): the value kept when the spawned process
exits non-zero; no timing field is populated. -/
def failTiming : Timing :=
  ⟨-1, none, none, none, none, none, none, none⟩

/-- Model of `timed_run` (lines 33-58). `outcome` is `none` when the spawned process
exits non-zero (so the timing file is never read), otherwise the parsed
timing file. -/
def timed_run (outcome : Option ProcTiming) : Timing :=
  match outcome with
  | none => failTiming
  | some p =>
    ⟨p.status, some p.wall, some p.user, some p.sys,
      some p.faultMajor, some p.faultMinor, some p.rssMax,
      some (tadd p.sys p.user)⟩

/-- Model of `Header.ok` (lines 109-110): a timing dict is recorded and its `status`
is `0`. (A Python dict holding at least `status` is always truthy.) -/
def headerOk (t : Option Timing) : Bool :=
  match t with
  | none => false
  | some tt => tt.status == 0

/-- Python dict lookup on an association list (first binding wins; the
program never creates duplicate keys). -/
def lookupKV {α β : Type} [DecidableEq α] : List (α × β) → α → Option β
  | [], _ => none
  | (k, v) :: rest, q => if q = k then some v else lookupKV rest q

/-- One `anytree.Node` of the inclusion forest: its name, the index of its
parent in the creation-ordered node list (a parent always has a smaller
index), and whether its `header` attribute is the shared registry record
for `name` (true for trace nodes, line 147) or a private fresh `Header`
(the forest root, line 122, and the per-source roots, line 125). -/
structure TNode where
  name : String
  parent : Option Nat
  shared : Bool
deriving DecidableEq

/-- Python `str.strip()`: drop leading and trailing whitespace. -/
def pyStrip (l : List Char) : List Char :=
  ((l.dropWhile Char.isWhitespace).reverse.dropWhile Char.isWhitespace).reverse

/-- Model of `re.search(r'^([.]+) (.+)', l.strip())` (line 132): after stripping, a
maximal run of at least one dot, then one space, then a non-empty
remainder. Yields (number of dots, remainder). -/
def parseLine (l : List Char) : Option (Nat × List Char) :=
  let s := pyStrip l
  let dots := s.takeWhile (fun c => c == '.')
  match dots.length, s.drop dots.length with
  | 0, _ => none
  | Nat.succ k, ' ' :: c :: cs => some (Nat.succ k, c :: cs)
  | Nat.succ _, _ => none

/-- Python `str.split('\n')`. -/
def splitLines : List Char → List (List Char)
  | [] => [[]]
  | c :: rest =>
    if c == '\n' then [] :: splitLines rest
    else
      match splitLines rest with
      | [] => [[c]]
      | l :: ls => (c :: l) :: ls

/-- Reference count recorded in the registry for `p` (0 when no record has
been created yet; a fresh `Header` starts with `count = 0`, line 106). -/
def countLookup (reg : List (String × Nat)) (p : String) : Nat :=
  (lookupKV reg p).getD 0

/-- Model of `if path not in headers: headers[path] = Header()` (lines 139-140). -/
def regTouch (reg : List (String × Nat)) (p : String) : List (String × Nat) :=
  if (lookupKV reg p).isSome then reg else reg ++ [(p, 0)]

/-- Model of `headers[path].count += 1` (line 142): bump the existing record. -/
def regBump : List (String × Nat) → String → List (String × Nat)
  | [], _ => []
  | (k, v) :: rest, p =>
    if k = p then (k, v + 1) :: rest else (k, v) :: regBump rest p

/-- State of the per-source loop in `Compiler.includes` (lines 124-148):
all forest nodes created so far, the shared header registry
(identity ↦ reference count), the stack of (trace level, node index) pairs
with the top at the head, and the per-source set of identities already
counted (`seen`, line 127). -/
structure SrcSt where
  nodes : List TNode
  reg : List (String × Nat)
  stack : List (Nat × Nat)
  seen : List String
deriving DecidableEq

/-- Loop body of `Compiler.includes` for one trace line (lines 128-148):
skip non-matching lines; otherwise pop the stack while its top level is
`≥` the line's level, create the registry record if absent, count the
identity once per source, attach the new node to the stack top (or to the
per-source root at `srootIdx`), and push (level, new node). -/
def procLine (srootIdx : Nat) (st : SrcSt) (l : List Char) : SrcSt :=
  match parseLine l with
  | none => st
  | some lp =>
    let level := lp.1
    let path : String := ⟨lp.2⟩
    let stack1 := st.stack.dropWhile (fun p => level ≤ p.1)
    let reg1 := regTouch st.reg path
    let reg2 := if path ∈ st.seen then reg1 else regBump reg1 path
    let seen1 := if path ∈ st.seen then st.seen else st.seen ++ [path]
    let parentIdx :=
      match stack1 with
      | [] => srootIdx
      | t :: _ => t.2
    { nodes := st.nodes ++ [⟨path, some parentIdx, true⟩],
      reg := reg2,
      stack := (level, st.nodes.length) :: stack1,
      seen := seen1 }

/-- Identities of the structural lines of a line list, in order. -/
def linesPaths (lines : List (List Char)) : List String :=
  lines.filterMap (fun l => (parseLine l).map (fun x => (⟨x.2⟩ : String)))

/-- Identities of the structural lines of one source's trace text. -/
def tracePaths (trace : String) : List String :=
  linesPaths (splitLines trace.toList)

/-- One iteration of the outer source loop (lines 124-148): create the
per-source root under the forest root (index 0), then run the line loop
with a fresh stack and a fresh `seen` set. -/
def procSource (acc : List TNode × List (String × Nat)) (source : String)
    (trace : String) : List TNode × List (String × Nat) :=
  let srootIdx := acc.1.length
  let st0 : SrcSt := ⟨acc.1 ++ [⟨source, some 0, false⟩], acc.2, [], []⟩
  let st := (splitLines trace.toList).foldl (procLine srootIdx) st0
  (st.nodes, st.reg)

/-- Model of `Compiler.includes` (lines 121-149). Each source is paired with the
result of the (cached) stderr fetch; `none` models `_output` having caught
a compiler failure and returned Python `None` (line 164-165), on which
`includes` raises `AttributeError` at `None.split('\n')` (line 128) —
modelled as `Except.error`. -/
def includes (traces : List (String × Option String)) :
    Except Unit (List TNode × List (String × Nat)) :=
  traces.foldlM
    (fun acc st =>
      match st.2 with
      | none => Except.error ()
      | some tr => Except.ok (procSource acc st.1 tr))
    ([⟨("root"), none, false⟩], [])

/-- Indices of the direct children of node `i`, in creation (= anytree
child) order. -/
def childrenIdx (nodes : List TNode) (i : Nat) : List Nat :=
  (List.range nodes.length).filter
    (fun j =>
      match nodes[j]? with
      | some n => decide (n.parent = some i)
      | none => false)

/-- anytree `node.depth`: distance to the forest root. The `p < i` guard is
always satisfied for forests built by `includes`, whose parents precede
their children in the node list. -/
def depthOf (nodes : List TNode) (i : Nat) : Nat :=
  match nodes[i]? with
  | none => 0
  | some n =>
    match n.parent with
    | none => 0
    | some p => if _h : p < i then depthOf nodes p + 1 else 0
termination_by i

/-- Auxiliary for `ancChain`, structurally recursive on an explicit bound:
since a node's parent always has a smaller index, the node's own index
bounds the length of its ancestor chain. -/
def ancChainAux (nodes : List TNode) : Nat → Nat → List Nat
  | 0, _ => []
  | fuel + 1, i =>
    match nodes[i]? with
    | none => []
    | some n =>
      match n.parent with
      | none => []
      | some p => if p < i then p :: ancChainAux nodes fuel p else []

/-- anytree `node.ancestors` as an index list (parent first; only
membership is ever used). -/
def ancChain (nodes : List TNode) (i : Nat) : List Nat :=
  ancChainAux nodes i i

/-- Nodes at distance `k` from the forest root, in anytree breadth-first
order. -/
def frontierAt (nodes : List TNode) : Nat → List Nat
  | 0 => [0]
  | k + 1 => (frontierAt nodes k).flatMap (childrenIdx nodes)

/-- Model of `anytree.LevelOrderIter` on the forest rooted at node 0: the levels
concatenated (levels past the deepest node are empty, so stopping there,
as the iterator does, yields the same list). -/
def levelOrder (nodes : List TNode) : List Nat :=
  (List.range nodes.length).flatMap (frontierAt nodes)

/-- Well-formedness of a creation-ordered node list: non-empty, node 0 is
the parentless forest root, and every other node's parent precedes it.
Every forest built by `includes` satisfies this. -/
def wfNodes (nodes : List TNode) : Bool :=
  match nodes with
  | [] => false
  | n0 :: _ =>
    decide (n0.parent = none) &&
      (List.range nodes.length).all
        (fun i =>
          i == 0 ||
            match nodes[i]? with
            | some n =>
              match n.parent with
              | some p => decide (p < i)
              | none => false
            | none => true)

/-- Key addressing a node's `header` record: trace nodes share the
registry record of their identity string; the forest root and the
per-source roots each own a private record, keyed by their index. -/
def keyAt (nodes : List TNode) (i : Nat) : Sum Nat String :=
  match nodes[i]? with
  | some n => if n.shared then Sum.inr n.name else Sum.inl i
  | none => Sum.inl i

/-- The node's `name` attribute. -/
def nameAt (nodes : List TNode) (i : Nat) : String :=
  match nodes[i]? with
  | some n => n.name
  | none => ""

/-- Whether node `i` is a trace node (its header is the shared registry
record). -/
def sharedAt (nodes : List TNode) (i : Nat) : Bool :=
  match nodes[i]? with
  | some n => n.shared
  | none => false

/-- Model of `node.header.count`: the registry count for trace nodes, 0 for the
private records of the roots. -/
def countOf (nodes : List TNode) (reg : List (String × Nat)) (i : Nat) : Nat :=
  match nodes[i]? with
  | some n => if n.shared then countLookup reg n.name else 0
  | none => 0

/-- The timing state: `header.time` per header record (absent = Python
`None`). -/
abbrev TState := List (Sum Nat String × Timing)

/-- Model of `node.header.time` of node `i` under timing state `st`. -/
def hdrTime (nodes : List TNode) (st : TState) (i : Nat) : Option Timing :=
  lookupKV st (keyAt nodes i)

/-- Model of `node.header.ok()` of node `i`. -/
def okAt (nodes : List TNode) (st : TState) (i : Nat) : Bool :=
  headerOk (hdrTime nodes st i)

/-- Model of `node.header.time['cpu']` of node `i` (only ever read when the header
is measured; timings produced by `timed_run` with status 0 always carry
`cpu`). -/
def cpuValAt (nodes : List TNode) (st : TState) (i : Nat) : Time :=
  match hdrTime nodes st i with
  | some t => t.cpu.getD (Time.ofInt 0)
  | none => Time.ofInt 0

/-- Model of `filter_up` (lines 96-102): the predicate holds at the node itself or
at one of its ancestors. -/
def filter_up (nodes : List TNode) (f : Nat → Bool) (i : Nat) : Bool :=
  f i || (ancChain nodes i).any f

/-- The predicate handed to `filter_up` by the timing loop (line 230):
`x.header.ok() and x.header.time['cpu'] < args.min_duration`. -/
def cheapOk (minDur : Time) (t : Option Timing) : Bool :=
  match t with
  | none => false
  | some tt =>
    tt.status == 0 &&
      match tt.cpu with
      | some c => tltB c minDur
      | none => false

/-- Guard of the timing loop (lines 226-231): the node's header is timed
now exactly when its count reaches `min_refs`, no timing is recorded yet,
and `filter_up` finds no measured-ok header cheaper than `min_duration` at
the node or above it. -/
def invokes (nodes : List TNode) (reg : List (String × Nat)) (minRefs : Int)
    (minDur : Time) (st : TState) (i : Nat) : Bool :=
  !(decide ((countOf nodes reg i : Int) < minRefs) || (hdrTime nodes st i).isSome) &&
    !(filter_up nodes (fun j => cheapOk minDur (hdrTime nodes st j)) i)

/-- Body of the timing loop (lines 225-232): when the guard passes, record
`time_header`'s result (a `timed_run` outcome, supplied by `oracle`) on the
node's header record. -/
def timeStep (nodes : List TNode) (reg : List (String × Nat)) (minRefs : Int)
    (minDur : Time) (oracle : String → Option ProcTiming)
    (st : TState) (i : Nat) : TState :=
  if invokes nodes reg minRefs minDur st i then
    st ++ [(keyAt nodes i, timed_run (oracle (nameAt nodes i)))]
  else st

/-- The timing pass of `act_header` (lines 225-232): fold the loop body
over the forest in level order, starting from no recorded timings. -/
def timePass (nodes : List TNode) (reg : List (String × Nat)) (minRefs : Int)
    (minDur : Time) (oracle : String → Option ProcTiming) : TState :=
  (levelOrder nodes).foldl (timeStep nodes reg minRefs minDur oracle) []

/-- Model of `time_self` of one reported node (lines 253-258): its cpu time minus
the cpu time of each direct child whose header is measured-ok (0 for the
others), clamped at 0 by `max`. -/
def selfCostAt (nodes : List TNode) (st : TState) (i : Nat) : Time :=
  tmax (Time.ofInt 0)
    (tsub (cpuValAt nodes st i)
      (tsum ((childrenIdx nodes i).map
        (fun j => if okAt nodes st j then cpuValAt nodes st j else Time.ofInt 0))))

/-- Body of the common-header loop (lines 267-272): add the node's identity
when its header is measured-ok, its count reaches `common_min`, its cpu
time reaches `min_duration`, and `filter_up` finds neither the node's own
identity nor an ancestor's identity in the set. -/
def commonStep (nodes : List TNode) (reg : List (String × Nat))
    (minDur commonMin : Time) (st : TState) (common : List String) (i : Nat) :
    List String :=
  if okAt nodes st i &&
      tleB commonMin (Time.ofInt (countOf nodes reg i)) &&
      tleB minDur (cpuValAt nodes st i) &&
      !(filter_up nodes (fun j => decide (nameAt nodes j ∈ common)) i) then
    nameAt nodes i :: common
  else common

/-- The common-header pass of `act_header` (lines 265-272): fold the loop
body over the forest in level order, starting from the empty set. -/
def commonSet (nodes : List TNode) (reg : List (String × Nat))
    (minDur commonMin : Time) (st : TState) : List String :=
  (levelOrder nodes).foldl (commonStep nodes reg minDur commonMin st) []

/-- The `header` sub-command options (lines 185-187). -/
structure Params where
  minRefs : Int
  minDur : Time
  commonPct : Time

/-- Outputs of one `act_header` run that the claims concern. -/
structure AnalysisOut where
  nodes : List TNode
  reg : List (String × Nat)
  times : TState
  common : List String

/-- Model of `act_header` (lines 223-273) restricted to the computations the claims
concern: build the forest and registry, run the timing pass, then the
common-header pass with `common_min = common_pct * len(sources) / 100`
(line 266). `oracle` models `Compiler.time_header` for a header identity;
`traces` pairs each source with its stderr fetch result. -/
def act_header (oracle : String → Option ProcTiming)
    (traces : List (String × Option String)) (p : Params) :
    Except Unit AnalysisOut :=
  match includes traces with
  | Except.error e => Except.error e
  | Except.ok nr =>
    let times := timePass nr.1 nr.2 p.minRefs p.minDur oracle
    let commonMin := tdiv (tmul p.commonPct (Time.ofInt traces.length)) (Time.ofInt 100)
    Except.ok ⟨nr.1, nr.2, times, commonSet nr.1 nr.2 p.minDur commonMin times⟩

/-- The byte stream hashed by `cached` (lines 81-84): the salt `v1`, the
wrapped function's name, then every argument, concatenated with no
separator. SHA-256 is modelled as injective, so the cache key is the
stream itself. -/
def fingerprintInput (name : String) (args : List String) : String :=
  ("v1" ++ name) ++ String.join args

/-- Result of one call through the `cached` wrapper: the returned value,
the cache contents afterwards, and whether the wrapped function was
actually invoked. -/
structure CallOut (V : Type) where
  val : V
  cache : List (String × V)
  invoked : Bool
deriving DecidableEq

/-- One call through the `cached` wrapper (lines 76-94). With a cache
directory configured, a hit returns the stored (pickled) value and a miss
invokes the function and persists its result; without one, the function is
always invoked and nothing is stored. Pickling round-trips, so stored
values are modelled as the values themselves. -/
def cachedCall {V : Type} (hasDir : Bool) (f : List String → V) (name : String)
    (cache : List (String × V)) (args : List String) : CallOut V :=
  if hasDir then
    match lookupKV cache (fingerprintInput name args) with
    | some v => ⟨v, cache, false⟩
    | none => ⟨f args, cache ++ [(fingerprintInput name args, f args)], true⟩
  else ⟨f args, cache, true⟩

/-- A sequence of operations routed through the `cached` wrapper, threading
the cache; yields each call's returned value. `f` gives the pure result of
the wrapped function for an operation name and argument list. -/
def runCached {V : Type} (hasDir : Bool) (f : String → List String → V)
    (cache : List (String × V)) : List (String × List String) → List V
  | [] => []
  | op :: rest =>
    let r := cachedCall hasDir (f op.1) op.1 cache op.2
    r.val :: runCached hasDir f r.cache rest

theorem lookupKV_append {α β : Type} [DecidableEq α] (l1 l2 : List (α × β)) (q : α) :
    lookupKV (l1 ++ l2) q =
      match lookupKV l1 q with
      | some v => some v
      | none => lookupKV l2 q := by
  induction l1 with
  | nil => simp [lookupKV]
  | cons a rest ih =>
    by_cases h : q = a.1
    · simp [lookupKV, h]
    · simp [lookupKV, h, ih]

theorem countLookup_regTouch (reg : List (String × Nat)) (q p : String) :
    countLookup (regTouch reg q) p = countLookup reg p := by
  unfold regTouch
  by_cases h : (lookupKV reg q).isSome
  · simp [h]
  · simp only [h, if_false, Bool.false_eq_true, countLookup, lookupKV_append]
    cases hp : lookupKV reg p with
    | some v => simp
    | none => by_cases hq : p = q <;> simp [lookupKV, hq]

theorem lookupKV_regTouch_isSome (reg : List (String × Nat)) (q : String) :
    (lookupKV (regTouch reg q) q).isSome := by
  unfold regTouch
  cases hp : lookupKV reg q with
  | some v => simp [hp]
  | none => simp [hp, lookupKV_append, lookupKV]

theorem countLookup_regBump (reg : List (String × Nat)) (q : String) :
    (lookupKV reg q).isSome →
    ∀ p, countLookup (regBump reg q) p =
      countLookup reg p + (if p = q then 1 else 0) := by
  induction reg with
  | nil => intro hq; simp [lookupKV] at hq
  | cons a rest ih =>
    obtain ⟨k, v⟩ := a
    intro hq p
    by_cases hk : k = q
    · subst hk
      by_cases hpq : p = k
      · subst hpq; simp [regBump, countLookup, lookupKV]
      · simp [regBump, countLookup, lookupKV, hpq]
    · have hne : ¬q = k := fun h => hk h.symm
      have hq1 : (lookupKV rest q).isSome := by
        simpa [lookupKV, hne] using hq
      by_cases hpq : p = k
      · subst hpq
        simp [regBump, hk, countLookup, lookupKV, hk]
      · simp only [regBump, hk, if_false]
        simp only [countLookup, lookupKV, hpq, if_false]
        exact ih hq1 p

theorem countLookup_touch_bump (reg : List (String × Nat)) (q p : String) :
    countLookup (regBump (regTouch reg q) q) p =
      countLookup reg p + (if p = q then 1 else 0) := by
  rw [countLookup_regBump _ _ (lookupKV_regTouch_isSome reg q) p,
    countLookup_regTouch]

theorem procLine_fold_count (srootIdx : Nat) (lines : List (List Char)) :
    ∀ (st : SrcSt) (p : String),
      countLookup ((lines.foldl (procLine srootIdx) st).reg) p =
        countLookup st.reg p +
          (if p ∈ linesPaths lines ∧ p ∉ st.seen then 1 else 0) := by
  induction lines with
  | nil => intro st p; simp [linesPaths]
  | cons l rest ih =>
    intro st p
    rw [List.foldl_cons, ih]
    cases hp : parseLine l with
    | none =>
      have hst : procLine srootIdx st l = st := by simp [procLine, hp]
      have hpaths : linesPaths (l :: rest) = linesPaths rest := by
        simp [linesPaths, List.filterMap_cons, hp]
      rw [hst, hpaths]
    | some lp =>
      have hpaths : linesPaths (l :: rest) =
          (⟨lp.2⟩ : String) :: linesPaths rest := by
        simp [linesPaths, List.filterMap_cons, hp]
      rw [hpaths]
      by_cases hin : (⟨lp.2⟩ : String) ∈ st.seen
      · have hreg : (procLine srootIdx st l).reg = regTouch st.reg ⟨lp.2⟩ := by
          simp [procLine, hp, hin]
        have hseen : (procLine srootIdx st l).seen = st.seen := by
          simp [procLine, hp, hin]
        rw [hreg, hseen, countLookup_regTouch]
        by_cases hpq : p = (⟨lp.2⟩ : String)
        · subst hpq; simp [hin]
        · simp [hpq]
      · have hreg : (procLine srootIdx st l).reg =
            regBump (regTouch st.reg ⟨lp.2⟩) ⟨lp.2⟩ := by
          simp [procLine, hp, hin]
        have hseen : (procLine srootIdx st l).seen = st.seen ++ [⟨lp.2⟩] := by
          simp [procLine, hp, hin]
        rw [hreg, hseen, countLookup_touch_bump]
        by_cases hpq : p = (⟨lp.2⟩ : String)
        · subst hpq; simp [hin]
        · simp [hpq, hin]

/-- Claim C1: for every header identity and every single source file's
trace, the contribution of that file to the identity's `referenceCount` is
exactly 1 when the identity occurs anywhere in the file's trace — no
matter how many times or at how many nesting depths it recurs — and 0
otherwise; the per-source `seen` set prevents double counting. -/
theorem refcount_once_per_source (acc : List TNode × List (String × Nat))
    (source trace : String) (p : String) :
    countLookup (procSource acc source trace).2 p =
      countLookup acc.2 p + (if p ∈ tracePaths trace then 1 else 0) := by
  unfold procSource
  rw [procLine_fold_count]
  simp [tracePaths]

/-- Spec-side stack update (claim C2 / spec §4.4), following the spec's
words: pop the stack while its top entry's depth is greater than or equal
to the current line's depth. -/
def specPop (stack : List (Nat × Nat)) (level : Nat) : List (Nat × Nat) :=
  stack.dropWhile (fun p => level ≤ p.1)

/-- Spec-side parent choice (claim C2 / spec §4.4): the stack's top node if
the stack is non-empty, else the per-source-file root. -/
def specParent (srootIdx : Nat) (stack : List (Nat × Nat)) : Nat :=
  match stack with
  | [] => srootIdx
  | t :: _ => t.2

/-- Claim C2: for every structural trace line the builder pops the stack
while the top entry's depth is ≥ the line's depth, attaches the new node to
the stack's top node if the stack is non-empty and otherwise to the
per-source-file root, and pushes (depth, newNode) — for arbitrary
(non-contiguous, non-zero-based, non-monotonic) depth sequences, since the
state is universally quantified; lines not matching the structural pattern
leave the whole state (tree, registry, stack, seen set) unchanged. -/
theorem tree_step_matches_spec (srootIdx : Nat) (st : SrcSt) (l : List Char) :
    (∀ level pathCs, parseLine l = some (level, pathCs) →
      (procLine srootIdx st l).stack =
          (level, st.nodes.length) :: specPop st.stack level ∧
        (procLine srootIdx st l).nodes =
          st.nodes ++
            [⟨⟨pathCs⟩, some (specParent srootIdx (specPop st.stack level)),
              true⟩]) ∧
    (parseLine l = none → procLine srootIdx st l = st) := by
  constructor
  · intro level pathCs h
    refine ⟨by simp [procLine, h, specPop], ?_⟩
    simp only [procLine, h, specPop, specParent]
  · intro h
    simp [procLine, h]

/-- Witness for claim C2 at a concrete state and line: the line `.. x`
(depth 2) pops the entry of depth 3, keeps the entry of depth 1, attaches
to node 2 and pushes (2, new node). -/
theorem tree_step_matches_spec_witness :
    (procLine 9 ⟨[⟨("r"), none, false⟩], [], [(3, 5), (1, 2)], []⟩
          (".. x".toList)).stack =
        (2, 1) :: specPop [(3, 5), (1, 2)] 2 ∧
      (procLine 9 ⟨[⟨("r"), none, false⟩], [], [(3, 5), (1, 2)], []⟩
          (".. x".toList)).nodes =
        [⟨("r"), none, false⟩] ++
          [⟨⟨[ 'x' ]⟩, some (specParent 9 (specPop [(3, 5), (1, 2)] 2)), true⟩] :=
  (tree_step_matches_spec 9 _ _).1 2 [ 'x' ] (by decide)

theorem tadd_zero (x : Time) : tadd x (Time.ofInt 0) = x := by
  cases x
  simp [tadd, Time.ofInt]

theorem foldl_tadd_if_filter {α : Type} (pr : α → Bool) (f : α → Time) :
    ∀ (l : List α) (acc : Time),
      (l.map (fun j => if pr j then f j else Time.ofInt 0)).foldl tadd acc =
        ((l.filter pr).map f).foldl tadd acc := by
  intro l
  induction l with
  | nil => intro acc; rfl
  | cons x rest ih =>
    intro acc
    by_cases h : pr x
    · simp [h, List.filter_cons, ih]
    · simp [h, List.filter_cons, tadd_zero, ih]

theorem tsum_if_filter {α : Type} (l : List α) (pr : α → Bool) (f : α → Time) :
    tsum (l.map (fun j => if pr j then f j else Time.ofInt 0)) =
      tsum ((l.filter pr).map f) :=
  foldl_tadd_if_filter pr f l (Time.ofInt 0)

theorem tmax_zero_nonneg (x : Time) :
    tleB (Time.ofInt 0) (tmax (Time.ofInt 0) x) = true := by
  unfold tmax
  by_cases h : tltB (Time.ofInt 0) x = true
  · simp only [h, if_true]
    unfold tltB at h
    unfold tleB
    simp only [Time.ofInt, decide_eq_true_eq] at h ⊢
    simp only [zero_mul, mul_one] at h ⊢
    omega
  · have hf : tltB (Time.ofInt 0) x = false := by
      cases hb : tltB (Time.ofInt 0) x
      · rfl
      · exact absurd hb h
    simp only [hf, Bool.false_eq_true, if_false]
    decide

/-- Claim C3: for a forest node that is neither the forest root nor a
per-source root (it has a parent and a grandparent) and whose header is
measured-ok with cpu time `c`, the reported self cost equals
`max(0, total − Σ total(child))` summed over exactly the direct children
whose header is measured-ok, and it is never negative. -/
theorem self_cost_formula (nodes : List TNode) (st : TState) (i : Nat)
    (t : Timing) (ht : hdrTime nodes st i = some t) (_h0 : t.status = 0)
    (c : Time) (hc : t.cpu = some c)
    (n : TNode) (_hn : nodes[i]? = some n)
    (pIdx : Nat) (_hpar : n.parent = some pIdx)
    (np : TNode) (_hnp : nodes[pIdx]? = some np)
    (gIdx : Nat) (_hg : np.parent = some gIdx) :
    selfCostAt nodes st i =
        tmax (Time.ofInt 0)
          (tsub c
            (tsum (((childrenIdx nodes i).filter (okAt nodes st)).map
              (cpuValAt nodes st)))) ∧
      tleB (Time.ofInt 0) (selfCostAt nodes st i) = true := by
  have hcpu : cpuValAt nodes st i = c := by simp [cpuValAt, ht, hc]
  constructor
  · rw [selfCostAt, hcpu, tsum_if_filter]
  · exact tmax_zero_nonneg _

/-- Witness for claim C3, mirroring the spec's Scenario C: node `W`
(total 1) with measured-ok children of totals 3/10 and 4/10. -/
theorem self_cost_formula_witness :
    selfCostAt
        [⟨("root"), none, false⟩, ⟨("s.cpp"), some 0, false⟩,
          ⟨("W"), some 1, true⟩, ⟨("c1"), some 2, true⟩, ⟨("c2"), some 2, true⟩]
        [(Sum.inr ("W"), ⟨0, none, none, none, none, none, none, some ⟨1, 1⟩⟩),
          (Sum.inr ("c1"), ⟨0, none, none, none, none, none, none, some ⟨3, 10⟩⟩),
          (Sum.inr ("c2"), ⟨0, none, none, none, none, none, none, some ⟨4, 10⟩⟩)]
        2 =
        tmax (Time.ofInt 0)
          (tsub ⟨1, 1⟩
            (tsum (((childrenIdx
                [⟨("root"), none, false⟩, ⟨("s.cpp"), some 0, false⟩,
                  ⟨("W"), some 1, true⟩, ⟨("c1"), some 2, true⟩,
                  ⟨("c2"), some 2, true⟩] 2).filter
                (okAt
                  [⟨("root"), none, false⟩, ⟨("s.cpp"), some 0, false⟩,
                    ⟨("W"), some 1, true⟩, ⟨("c1"), some 2, true⟩,
                    ⟨("c2"), some 2, true⟩]
                  [(Sum.inr ("W"), ⟨0, none, none, none, none, none, none, some ⟨1, 1⟩⟩),
                    (Sum.inr ("c1"), ⟨0, none, none, none, none, none, none, some ⟨3, 10⟩⟩),
                    (Sum.inr ("c2"), ⟨0, none, none, none, none, none, none, some ⟨4, 10⟩⟩)])).map
              (cpuValAt
                [⟨("root"), none, false⟩, ⟨("s.cpp"), some 0, false⟩,
                  ⟨("W"), some 1, true⟩, ⟨("c1"), some 2, true⟩,
                  ⟨("c2"), some 2, true⟩]
                [(Sum.inr ("W"), ⟨0, none, none, none, none, none, none, some ⟨1, 1⟩⟩),
                  (Sum.inr ("c1"), ⟨0, none, none, none, none, none, none, some ⟨3, 10⟩⟩),
                  (Sum.inr ("c2"), ⟨0, none, none, none, none, none, none, some ⟨4, 10⟩⟩)])))) ∧
      tleB (Time.ofInt 0)
          (selfCostAt
            [⟨("root"), none, false⟩, ⟨("s.cpp"), some 0, false⟩,
              ⟨("W"), some 1, true⟩, ⟨("c1"), some 2, true⟩, ⟨("c2"), some 2, true⟩]
            [(Sum.inr ("W"), ⟨0, none, none, none, none, none, none, some ⟨1, 1⟩⟩),
              (Sum.inr ("c1"), ⟨0, none, none, none, none, none, none, some ⟨3, 10⟩⟩),
              (Sum.inr ("c2"), ⟨0, none, none, none, none, none, none, some ⟨4, 10⟩⟩)]
            2) = true :=
  self_cost_formula _ _ 2 _ (by rfl) (by rfl) ⟨1, 1⟩ (by rfl)
    ⟨("W"), some 1, true⟩ (by rfl) 1 (by rfl)
    ⟨("s.cpp"), some 0, false⟩ (by rfl) 0 (by rfl)

/-- Claim C6: with a cache directory configured, two calls with identical
operation name and identical ordered string arguments perform the
underlying invocation at most once — the second call is a hit that returns
the identical stored result without re-invoking, and leaves the cache
unchanged. -/
theorem cache_idempotent {V : Type} (f : List String → V) (name : String)
    (cache : List (String × V)) (args : List String) :
    (cachedCall true f name (cachedCall true f name cache args).cache args).val =
        (cachedCall true f name cache args).val ∧
      (cachedCall true f name
          (cachedCall true f name cache args).cache args).invoked = false ∧
      (cachedCall true f name
          (cachedCall true f name cache args).cache args).cache =
        (cachedCall true f name cache args).cache := by
  cases h : lookupKV cache (fingerprintInput name args) with
  | some v => simp [cachedCall, h]
  | none =>
    have h2 : lookupKV (cache ++ [(fingerprintInput name args, f args)])
        (fingerprintInput name args) = some (f args) := by
      rw [lookupKV_append]
      simp [h, lookupKV]
    simp [cachedCall, h, h2]

theorem runCached_false_eq_map {V : Type} (f : String → List String → V) :
    ∀ (ops : List (String × List String)) (cache : List (String × V)),
      runCached false f cache ops = ops.map (fun o => f o.1 o.2) := by
  intro ops
  induction ops with
  | nil => intro cache; rfl
  | cons op rest ih => intro cache; simp [runCached, cachedCall, ih]

theorem runCached_true_eq_map {V : Type} (f : String → List String → V) :
    ∀ (ops : List (String × List String)) (cache : List (String × V)),
      (∀ o ∈ ops, ∀ v,
        lookupKV cache (fingerprintInput o.1 o.2) = some v → v = f o.1 o.2) →
      (∀ o1 ∈ ops, ∀ o2 ∈ ops,
        fingerprintInput o1.1 o1.2 = fingerprintInput o2.1 o2.2 → o1 = o2) →
      runCached true f cache ops = ops.map (fun o => f o.1 o.2) := by
  intro ops
  induction ops with
  | nil => intro cache _ _; rfl
  | cons op rest ih =>
    intro cache hc hinj
    obtain ⟨n, a⟩ := op
    cases h : lookupKV cache (fingerprintInput n a) with
    | some v =>
      have hv : v = f n a := hc (n, a) (by simp) v h
      simp only [runCached, cachedCall, h, if_true]
      rw [List.map_cons]
      refine congrArg₂ _ hv ?_
      exact ih cache (fun o ho v hv => hc o (List.mem_cons_of_mem _ ho) v hv)
        (fun o1 h1 o2 h2 =>
          hinj o1 (List.mem_cons_of_mem _ h1) o2 (List.mem_cons_of_mem _ h2))
    | none =>
      simp only [runCached, cachedCall, h, if_true]
      rw [List.map_cons]
      refine congrArg₂ _ rfl ?_
      refine ih (cache ++ [(fingerprintInput n a, f n a)]) ?_
        (fun o1 h1 o2 h2 =>
          hinj o1 (List.mem_cons_of_mem _ h1) o2 (List.mem_cons_of_mem _ h2))
      intro o ho v hv
      rw [lookupKV_append] at hv
      cases hs : lookupKV cache (fingerprintInput o.1 o.2) with
      | some w =>
        rw [hs] at hv
        exact hc o (List.mem_cons_of_mem _ ho) v (by rw [hs, ← hv])
      | none =>
        rw [hs] at hv
        by_cases hfp : fingerprintInput o.1 o.2 = fingerprintInput n a
        · have ho2 : o = (n, a) :=
            hinj o (List.mem_cons_of_mem _ ho) (n, a) (List.mem_cons_self _ _) hfp
          have hva : v = f n a := by
            have := by simpa [lookupKV, hfp] using hv
            exact this.symm
          rw [ho2, hva]
        · simp [lookupKV, hfp] at hv

/-- Counterexample to claim C7 as stated: `cached` hashes the operation
name and arguments concatenated with no separator (lines 81-84), so the
distinct argument lists `["ab"]` and `["a","b"]` of the same operation
share a fingerprint; with caching enabled the second call returns the
first call's stored value, which differs from the uncached result even
though the wrapped function is pure in its argument list. -/
theorem cache_changes_results_cx :
    runCached true (fun _ args => args) []
        [(("g"), [("ab")]), (("g"), [("a"), ("b")])] ≠
      runCached false (fun _ args => args) []
        [(("g"), [("ab")]), (("g"), [("a"), ("b")])] := by
  decide

/-- Claim C7 (amended): starting from an empty cache, running any sequence
of operations with caching enabled returns exactly the same results as
running it with caching disabled, for every pure function table — provided
no two distinct (name, argument-list) operations in the sequence
concatenate to the same fingerprint stream (which the unseparated
concatenation of lines 81-84 does not by itself guarantee). -/
theorem cache_advisory_for_injective_fingerprints {V : Type}
    (f : String → List String → V) (ops : List (String × List String))
    (hinj : ∀ o1 ∈ ops, ∀ o2 ∈ ops,
      fingerprintInput o1.1 o1.2 = fingerprintInput o2.1 o2.2 → o1 = o2) :
    runCached true f [] ops = runCached false f [] ops := by
  rw [runCached_false_eq_map,
    runCached_true_eq_map f ops [] (by intro o _ v hv; simp [lookupKV] at hv) hinj]

/-- Witness for claim C7 (amended) at a concrete operation sequence whose
fingerprints are injective. -/
theorem cache_advisory_for_injective_fingerprints_witness :
    runCached true (fun _ args => args) []
        [(("g"), [("a")]), (("h"), [("b")])] =
      runCached false (fun _ args => args) []
        [(("g"), [("a")]), (("h"), [("b")])] :=
  cache_advisory_for_injective_fingerprints (fun _ args => args)
    [(("g"), [("a")]), (("h"), [("b")])] (by decide)

theorem tadd_comm (a b : Time) : tadd a b = tadd b a := by
  cases a
  cases b
  unfold tadd
  simp only [Time.mk.injEq]
  constructor
  · ring
  · ring

/-- Claim C8: when the wrapped process exits non-zero, `timed_run` yields
the failure sentinel (`status = -1`) with no timing field populated; when
it exits zero the result carries all timing fields and its cpu time equals
user time plus system time. -/
theorem timed_run_contract :
    (timed_run none = failTiming ∧ failTiming.status = -1 ∧
      failTiming.wall = none ∧ failTiming.user = none ∧
      failTiming.sys = none ∧ failTiming.faultMajor = none ∧
      failTiming.faultMinor = none ∧ failTiming.rssMax = none ∧
      failTiming.cpu = none) ∧
    ∀ p : ProcTiming,
      (timed_run (some p)).status = p.status ∧
      (timed_run (some p)).wall = some p.wall ∧
      (timed_run (some p)).user = some p.user ∧
      (timed_run (some p)).sys = some p.sys ∧
      (timed_run (some p)).faultMajor = some p.faultMajor ∧
      (timed_run (some p)).faultMinor = some p.faultMinor ∧
      (timed_run (some p)).rssMax = some p.rssMax ∧
      (timed_run (some p)).cpu = some (tadd p.user p.sys) := by
  refine ⟨⟨rfl, rfl, rfl, rfl, rfl, rfl, rfl, rfl, rfl⟩,
    fun p => ⟨rfl, rfl, rfl, rfl, rfl, rfl, rfl, ?_⟩⟩
  show some (tadd p.sys p.user) = some (tadd p.user p.sys)
  rw [tadd_comm]

/-- Claim C9 (code bug): when the compiler trace invocation for a source
exits non-zero, `_output` catches the error, prints the diagnostics and
returns `None` (lines 164-165); `includes` then raises `AttributeError` at
`None.split('\n')` (line 128), so the whole run aborts instead of treating
that source's trace as empty and completing on the remaining sources. A
failure at the first source and at a middle source both abort the run. -/
theorem includes_crashes_on_failed_trace :
    includes [(("a.cpp"), none)] = Except.error () ∧
      includes [(("a.cpp"), some ("")), (("b.cpp"), none),
        (("c.cpp"), some (". A"))] = Except.error () := by
  constructor
  · rfl
  · rfl

theorem keyAt_inr (nodes : List TNode) (i : Nat) (h : String) :
    keyAt nodes i = Sum.inr h →
      sharedAt nodes i = true ∧ nameAt nodes i = h := by
  unfold keyAt nameAt sharedAt
  cases hg : nodes[i]? with
  | none => intro hk; cases hk
  | some n =>
    by_cases hs : n.shared
    · simp only [hs, if_true]
      intro hk
      refine ⟨trivial, ?_⟩
      injection hk
    · simp only [hs, Bool.false_eq_true, if_false]
      intro hk
      cases hk

theorem timeStep_fold_mono (nodes : List TNode) (reg : List (String × Nat))
    (minRefs : Int) (minDur : Time) (oracle : String → Option ProcTiming) :
    ∀ (l : List Nat) (st : TState) (k : Sum Nat String) (v : Timing),
      lookupKV st k = some v →
      lookupKV (l.foldl (timeStep nodes reg minRefs minDur oracle) st) k =
        some v := by
  intro l
  induction l with
  | nil => intro st k v h; exact h
  | cons i rest ih =>
    intro st k v h
    rw [List.foldl_cons]
    apply ih
    unfold timeStep
    by_cases hi : invokes nodes reg minRefs minDur st i
    · simp only [hi, if_true]
      rw [lookupKV_append, h]
    · simp only [hi, Bool.false_eq_true, if_false]
      exact h

theorem timeStep_fold_none (nodes : List TNode) (reg : List (String × Nat))
    (minRefs : Int) (minDur : Time) (oracle : String → Option ProcTiming)
    (l : List Nat) (st : TState) (k : Sum Nat String) :
    lookupKV (l.foldl (timeStep nodes reg minRefs minDur oracle) st) k = none →
      lookupKV st k = none := by
  intro h
  cases hs : lookupKV st k with
  | none => rfl
  | some v =>
    rw [timeStep_fold_mono nodes reg minRefs minDur oracle l st k v hs] at h
    cases h

theorem timeStep_fold_failure (nodes : List TNode) (reg : List (String × Nat))
    (minRefs : Int) (minDur : Time) (oracle : String → Option ProcTiming)
    (h : String) (hor : oracle h = none) :
    ∀ (l : List Nat) (st : TState),
      (lookupKV st (Sum.inr h) = none ∨
        lookupKV st (Sum.inr h) = some failTiming) →
      (lookupKV (l.foldl (timeStep nodes reg minRefs minDur oracle) st)
          (Sum.inr h) = none ∨
        lookupKV (l.foldl (timeStep nodes reg minRefs minDur oracle) st)
          (Sum.inr h) = some failTiming) := by
  intro l
  induction l with
  | nil => intro st hst; exact hst
  | cons i rest ih =>
    intro st hst
    rw [List.foldl_cons]
    apply ih
    unfold timeStep
    by_cases hi : invokes nodes reg minRefs minDur st i
    · simp only [hi, if_true]
      rw [lookupKV_append]
      cases hst with
      | inl hnone =>
        rw [hnone]
        by_cases hk : Sum.inr h = keyAt nodes i
        · right
          have hname : nameAt nodes i = h := (keyAt_inr nodes i h hk.symm).2
          simp [lookupKV, hk, hname, hor, timed_run]
        · left
          simp [lookupKV, hk]
      | inr hfail =>
        rw [hfail]
        right
        rfl
    · simp only [hi, Bool.false_eq_true, if_false]
      exact hst

/-- Claim C10: failure results are memoized. (1) If the external timing of
header `h` fails (the process exits non-zero), the only value the timing
pass can ever record on `h`'s header record is the failure sentinel
`{'status': -1}`. (2) A node whose header already carries a recorded
timing — the failure sentinel included — is skipped by the timing loop, so
a failed measurement is never re-invoked for later occurrences in the same
run. (3) With a cache directory configured, a missing fingerprint is
computed and persisted — failure values included, since `cached` stores
whatever the wrapped function returned — and every later call with the
same fingerprint (e.g. in a later run over the same cache) returns the
stored value without invoking the operation. -/
theorem failure_results_memoized :
    (∀ (nodes : List TNode) (reg : List (String × Nat)) (minRefs : Int)
        (minDur : Time) (oracle : String → Option ProcTiming) (h : String),
      oracle h = none →
        lookupKV (timePass nodes reg minRefs minDur oracle) (Sum.inr h) =
            none ∨
          lookupKV (timePass nodes reg minRefs minDur oracle) (Sum.inr h) =
            some failTiming) ∧
    (∀ (nodes : List TNode) (reg : List (String × Nat)) (minRefs : Int)
        (minDur : Time) (st : TState) (i : Nat) (v : Timing),
      hdrTime nodes st i = some v →
      invokes nodes reg minRefs minDur st i = false) ∧
    (∀ (V : Type) (f : List String → V) (name : String)
        (cache : List (String × V)) (args : List String),
      lookupKV cache (fingerprintInput name args) = none →
        (cachedCall true f name cache args).cache =
            cache ++ [(fingerprintInput name args, f args)] ∧
          (cachedCall true f name
              ((cachedCall true f name cache args).cache) args).val = f args ∧
          (cachedCall true f name
              ((cachedCall true f name cache args).cache) args).invoked =
            false) := by
  refine ⟨?_, ?_, ?_⟩
  · intro nodes reg minRefs minDur oracle h hor
    exact timeStep_fold_failure nodes reg minRefs minDur oracle h hor
      (levelOrder nodes) [] (Or.inl rfl)
  · intro nodes reg minRefs minDur st i v hv
    simp [invokes, hv]
  · intro V f name cache args hmiss
    have h2 : lookupKV (cache ++ [(fingerprintInput name args, f args)])
        (fingerprintInput name args) = some (f args) := by
      rw [lookupKV_append]
      simp [hmiss, lookupKV]
    refine ⟨by simp [cachedCall, hmiss], ?_, ?_⟩
    · simp [cachedCall, hmiss, h2]
    · simp [cachedCall, hmiss, h2]

/-- Witness for claim C10: a one-node forest with an always-failing timing
oracle, a node whose header already records the failure sentinel, and a
cache miss for a concrete operation whose result is the failure value. -/
theorem failure_results_memoized_witness :
    (lookupKV (timePass [⟨("root"), none, false⟩] [] 1 ⟨1, 10⟩ (fun _ => none))
          (Sum.inr ("x")) = none ∨
        lookupKV (timePass [⟨("root"), none, false⟩] [] 1 ⟨1, 10⟩ (fun _ => none))
          (Sum.inr ("x")) = some failTiming) ∧
      invokes [⟨("root"), none, false⟩] [] 1 ⟨1, 10⟩
        [(Sum.inl 0, failTiming)] 0 = false ∧
      ((cachedCall true (fun _ => failTiming) ("time_header") [] [("h")]).cache =
          [] ++ [(fingerprintInput ("time_header") [("h")], failTiming)] ∧
        (cachedCall true (fun _ => failTiming) ("time_header")
            ((cachedCall true (fun _ => failTiming) ("time_header") []
              [("h")]).cache) [("h")]).val = failTiming ∧
        (cachedCall true (fun _ => failTiming) ("time_header")
            ((cachedCall true (fun _ => failTiming) ("time_header") []
              [("h")]).cache) [("h")]).invoked = false) :=
  ⟨failure_results_memoized.1 [⟨("root"), none, false⟩] [] 1 ⟨1, 10⟩
      (fun _ => none) ("x") rfl,
    failure_results_memoized.2.1 [⟨("root"), none, false⟩] [] 1 ⟨1, 10⟩
      [(Sum.inl 0, failTiming)] 0 failTiming rfl,
    failure_results_memoized.2.2 Timing (fun _ => failTiming) ("time_header")
      [] [("h")] rfl⟩

theorem depthOf_step (nodes : List TNode) (i : Nat) (n : TNode) (p : Nat)
    (hg : nodes[i]? = some n) (hp : n.parent = some p) (hlt : p < i) :
    depthOf nodes i = depthOf nodes p + 1 := by
  conv_lhs => rw [depthOf.eq_def]
  simp only [hg, hp]
  rw [dif_pos hlt]

theorem depthOf_root (nodes : List TNode) (i : Nat) (n : TNode)
    (hg : nodes[i]? = some n) (hp : n.parent = none) :
    depthOf nodes i = 0 := by
  conv_lhs => rw [depthOf.eq_def]
  simp only [hg, hp]

theorem ancChainAux_zero_idx (nodes : List TNode) (f : Nat) :
    ancChainAux nodes f 0 = [] := by
  cases f with
  | zero => rfl
  | succ f =>
    cases hg : nodes[0]? with
    | none => simp [ancChainAux, hg]
    | some n =>
      cases hp : n.parent with
      | none => simp [ancChainAux, hg, hp]
      | some p => simp [ancChainAux, hg, hp]

theorem ancChainAux_fuel (nodes : List TNode) :
    ∀ f f' i, i ≤ f → i ≤ f' →
      ancChainAux nodes f i = ancChainAux nodes f' i := by
  intro f
  induction f with
  | zero =>
    intro f' i h _h'
    have hi : i = 0 := Nat.le_zero.mp h
    subst hi
    rw [ancChainAux_zero_idx, ancChainAux_zero_idx]
  | succ f ih =>
    intro f' i hf hf'
    cases f' with
    | zero =>
      have hi : i = 0 := Nat.le_zero.mp hf'
      subst hi
      rw [ancChainAux_zero_idx, ancChainAux_zero_idx]
    | succ f2 =>
      cases hg : nodes[i]? with
      | none => simp [ancChainAux, hg]
      | some n =>
        cases hp : n.parent with
        | none => simp [ancChainAux, hg, hp]
        | some p =>
          by_cases hlt : p < i
          · simp only [ancChainAux, hg, hp, hlt, if_true]
            rw [ih f2 p (by omega) (by omega)]
          · simp [ancChainAux, hg, hp, hlt]

theorem ancChain_step (nodes : List TNode) (i : Nat) (n : TNode) (p : Nat)
    (hg : nodes[i]? = some n) (hp : n.parent = some p) (hlt : p < i) :
    ancChain nodes i = p :: ancChain nodes p := by
  unfold ancChain
  cases i with
  | zero => exact absurd hlt (Nat.not_lt_zero p)
  | succ m =>
    simp only [ancChainAux, hg, hp, hlt, if_true]
    rw [ancChainAux_fuel nodes m p p (by omega) (le_refl p)]

theorem ancChain_elim (nodes : List TNode) (i : Nat) (a : Nat)
    (ha : a ∈ ancChain nodes i) :
    ∃ n p, nodes[i]? = some n ∧ n.parent = some p ∧ p < i ∧
      (a = p ∨ a ∈ ancChain nodes p) := by
  cases hi0 : i with
  | zero =>
    rw [hi0] at ha
    rw [show ancChain nodes 0 = [] from ancChainAux_zero_idx nodes 0] at ha
    cases ha
  | succ m =>
    rw [hi0] at ha
    cases hg : nodes[m + 1]? with
    | none =>
      have hnil : ancChain nodes (m + 1) = [] := by
        unfold ancChain
        simp [ancChainAux, hg]
      rw [hnil] at ha
      cases ha
    | some n =>
      cases hp : n.parent with
      | none =>
        have hnil : ancChain nodes (m + 1) = [] := by
          unfold ancChain
          simp [ancChainAux, hg, hp]
        rw [hnil] at ha
        cases ha
      | some p =>
        by_cases hlt : p < m + 1
        · rw [ancChain_step nodes (m + 1) n p hg hp hlt] at ha
          rcases List.mem_cons.mp ha with h1 | h2
          · exact ⟨n, p, rfl, hp, hlt, Or.inl h1⟩
          · exact ⟨n, p, rfl, hp, hlt, Or.inr h2⟩
        · have hnil : ancChain nodes (m + 1) = [] := by
            unfold ancChain
            simp [ancChainAux, hg, hp, hlt]
          rw [hnil] at ha
          cases ha

theorem wfNodes_root (nodes : List TNode) (hwf : wfNodes nodes = true) :
    ∃ n0, nodes[0]? = some n0 ∧ n0.parent = none := by
  cases hnodes : nodes with
  | nil => rw [hnodes] at hwf; cases hwf
  | cons n0 rest =>
    rw [hnodes] at hwf
    unfold wfNodes at hwf
    rw [Bool.and_eq_true] at hwf
    exact ⟨n0, by simp, of_decide_eq_true hwf.1⟩

theorem wfNodes_length_pos (nodes : List TNode) (hwf : wfNodes nodes = true) :
    0 < nodes.length := by
  cases hnodes : nodes with
  | nil => rw [hnodes] at hwf; cases hwf
  | cons n0 rest => simp

theorem wfNodes_parent (nodes : List TNode) (hwf : wfNodes nodes = true)
    (i : Nat) (n : TNode) (p : Nat)
    (hn : nodes[i]? = some n) (hp : n.parent = some p) : p < i := by
  cases hnodes : nodes with
  | nil => rw [hnodes] at hn; cases hn
  | cons n0 rest =>
    rw [hnodes] at hwf hn
    unfold wfNodes at hwf
    rw [Bool.and_eq_true] at hwf
    obtain ⟨hroot, hall⟩ := hwf
    rw [List.all_eq_true] at hall
    have hilen : i < (n0 :: rest).length := by
      rw [List.getElem?_eq_some] at hn
      exact hn.1
    have hcase := hall i (List.mem_range.mpr hilen)
    by_cases hi0 : i = 0
    · subst hi0
      have hn0 : n0 = n := by
        simpa using hn
      have hnone : n0.parent = none := of_decide_eq_true hroot
      rw [← hn0, hnone] at hp
      cases hp
    · rw [Bool.or_eq_true] at hcase
      rcases hcase with h1 | h2
      · exact absurd (by simpa using h1) hi0
      · simp only [hn, hp, decide_eq_true_eq] at h2
        exact h2

theorem wfNodes_parent_exists (nodes : List TNode) (hwf : wfNodes nodes = true)
    (i : Nat) (n : TNode) (hn : nodes[i]? = some n) (hi0 : i ≠ 0) :
    ∃ p, n.parent = some p ∧ p < i := by
  cases hnodes : nodes with
  | nil => rw [hnodes] at hn; cases hn
  | cons n0 rest =>
    rw [hnodes] at hwf hn
    unfold wfNodes at hwf
    rw [Bool.and_eq_true] at hwf
    obtain ⟨hroot, hall⟩ := hwf
    rw [List.all_eq_true] at hall
    have hilen : i < (n0 :: rest).length := by
      rw [List.getElem?_eq_some] at hn
      exact hn.1
    have hcase := hall i (List.mem_range.mpr hilen)
    rw [Bool.or_eq_true] at hcase
    rcases hcase with h1 | h2
    · exact absurd (by simpa using h1) hi0
    · simp only [hn] at h2
      cases hp : n.parent with
      | none =>
        simp only [hp] at h2
        cases h2
      | some p =>
        simp only [hp, decide_eq_true_eq] at h2
        exact ⟨p, rfl, h2⟩

theorem ancChain_lt (nodes : List TNode) :
    ∀ i a, a ∈ ancChain nodes i → a < i := by
  intro i
  induction i using Nat.strong_induction_on with
  | _ i ih =>
    intro a ha
    obtain ⟨n, p, _hg, _hp, hlt, hcase⟩ := ancChain_elim nodes i a ha
    rcases hcase with rfl | h2
    · exact hlt
    · exact lt_trans (ih p hlt a h2) hlt

theorem ancChain_depth_lt (nodes : List TNode) (_hwf : wfNodes nodes = true) :
    ∀ i a, a ∈ ancChain nodes i → depthOf nodes a < depthOf nodes i := by
  intro i
  induction i using Nat.strong_induction_on with
  | _ i ih =>
    intro a ha
    obtain ⟨n, p, hg, hp, hlt, hcase⟩ := ancChain_elim nodes i a ha
    have hstep := depthOf_step nodes i n p hg hp hlt
    rcases hcase with rfl | h2
    · omega
    · have := ih p hlt a h2
      omega

theorem ancChain_trans (nodes : List TNode) :
    ∀ i a b, a ∈ ancChain nodes i → b ∈ ancChain nodes a →
      b ∈ ancChain nodes i := by
  intro i
  induction i using Nat.strong_induction_on with
  | _ i ih =>
    intro a b ha hb
    obtain ⟨n, p, hg, hp, hlt, hcase⟩ := ancChain_elim nodes i a ha
    rw [ancChain_step nodes i n p hg hp hlt]
    rcases hcase with rfl | h2
    · exact List.mem_cons_of_mem _ hb
    · exact List.mem_cons_of_mem _ (ih p hlt a b h2 hb)

theorem depthOf_le (nodes : List TNode) (hwf : wfNodes nodes = true) :
    ∀ i, depthOf nodes i ≤ i := by
  intro i
  induction i using Nat.strong_induction_on with
  | _ i ih =>
    cases hg : nodes[i]? with
    | none =>
      rw [depthOf.eq_def]
      simp [hg]
    | some n =>
      cases hp : n.parent with
      | none =>
        rw [depthOf_root nodes i n hg hp]
        exact Nat.zero_le i
      | some p =>
        have hlt : p < i := wfNodes_parent nodes hwf i n p hg hp
        rw [depthOf_step nodes i n p hg hp hlt]
        have := ih p hlt
        omega

theorem frontierAt_mem (nodes : List TNode) (hwf : wfNodes nodes = true) :
    ∀ k x, x ∈ frontierAt nodes k → x < nodes.length ∧ depthOf nodes x = k := by
  intro k
  induction k with
  | zero =>
    intro x hx
    have hx0 : x = 0 := by simpa [frontierAt] using hx
    subst hx0
    obtain ⟨n0, hg0, hp0⟩ := wfNodes_root nodes hwf
    exact ⟨wfNodes_length_pos nodes hwf, depthOf_root nodes 0 n0 hg0 hp0⟩
  | succ k ih =>
    intro x hx
    rw [frontierAt, List.mem_flatMap] at hx
    obtain ⟨p, hp, hchild⟩ := hx
    unfold childrenIdx at hchild
    rw [List.mem_filter, List.mem_range] at hchild
    obtain ⟨hxlen, hmatch⟩ := hchild
    cases hgx : nodes[x]? with
    | none =>
      simp only [hgx] at hmatch
      cases hmatch
    | some n =>
      simp only [hgx, decide_eq_true_eq] at hmatch
      have hplt : p < x := wfNodes_parent nodes hwf x n p hgx hmatch
      have hdep := depthOf_step nodes x n p hgx hmatch hplt
      obtain ⟨_hplen, hpdep⟩ := ih p hp
      exact ⟨hxlen, by omega⟩

theorem mem_frontier_depth (nodes : List TNode) (hwf : wfNodes nodes = true) :
    ∀ i, i < nodes.length → i ∈ frontierAt nodes (depthOf nodes i) := by
  intro i
  induction i using Nat.strong_induction_on with
  | _ i ih =>
    intro hilen
    cases hg : nodes[i]? with
    | none =>
      exfalso
      rw [List.getElem?_eq_none_iff] at hg
      omega
    | some n =>
      by_cases hi0 : i = 0
      · subst hi0
        obtain ⟨n0, hg0, hp0⟩ := wfNodes_root nodes hwf
        rw [depthOf_root nodes 0 n0 hg0 hp0]
        simp [frontierAt]
      · obtain ⟨p, hp, hplt⟩ := wfNodes_parent_exists nodes hwf i n hg hi0
        rw [depthOf_step nodes i n p hg hp hplt, frontierAt, List.mem_flatMap]
        refine ⟨p, ih p hplt (lt_trans hplt hilen), ?_⟩
        unfold childrenIdx
        rw [List.mem_filter, List.mem_range]
        refine ⟨hilen, ?_⟩
        simp [hg, hp]

theorem mem_levelOrder (nodes : List TNode) (hwf : wfNodes nodes = true)
    (i : Nat) (hi : i < nodes.length) : i ∈ levelOrder nodes := by
  unfold levelOrder
  rw [List.mem_flatMap]
  exact ⟨depthOf nodes i,
    List.mem_range.mpr (lt_of_le_of_lt (depthOf_le nodes hwf i) hi),
    mem_frontier_depth nodes hwf i hi⟩

theorem levelOrder_mem_lt (nodes : List TNode) (hwf : wfNodes nodes = true)
    (x : Nat) (hx : x ∈ levelOrder nodes) : x < nodes.length := by
  unfold levelOrder at hx
  rw [List.mem_flatMap] at hx
  obtain ⟨k, _hk, hfx⟩ := hx
  exact (frontierAt_mem nodes hwf k x hfx).1

theorem levelOrder_sorted (nodes : List TNode) (hwf : wfNodes nodes = true) :
    (levelOrder nodes).Pairwise
      (fun a b => depthOf nodes a ≤ depthOf nodes b) := by
  unfold levelOrder
  rw [List.flatMap_def, List.pairwise_flatten]
  constructor
  · intro l hl
    rw [List.mem_map] at hl
    obtain ⟨k, _hk, rfl⟩ := hl
    apply List.pairwise_of_forall_mem_list
    intro x hx y hy
    rw [(frontierAt_mem nodes hwf k x hx).2, (frontierAt_mem nodes hwf k y hy).2]
  · rw [List.pairwise_map]
    refine List.Pairwise.imp ?_ (List.pairwise_lt_range _)
    intro a b hab x hx y hy
    rw [(frontierAt_mem nodes hwf a x hx).2, (frontierAt_mem nodes hwf b y hy).2]
    omega

theorem anc_in_earlier (nodes : List TNode) (hwf : wfNodes nodes = true)
    (L1 L2 : List Nat) (i a : Nat)
    (hdec : levelOrder nodes = L1 ++ i :: L2) (ha : a ∈ ancChain nodes i) :
    a ∈ L1 := by
  have hiL : i ∈ levelOrder nodes := by
    rw [hdec]
    exact List.mem_append_right _ (List.mem_cons_self _ _)
  have hilen : i < nodes.length := levelOrder_mem_lt nodes hwf i hiL
  have halt : a < i := ancChain_lt nodes i a ha
  have haL : a ∈ levelOrder nodes :=
    mem_levelOrder nodes hwf a (lt_trans halt hilen)
  have hdepth : depthOf nodes a < depthOf nodes i :=
    ancChain_depth_lt nodes hwf i a ha
  rw [hdec] at haL
  rcases List.mem_append.mp haL with h1 | h2
  · exact h1
  · exfalso
    have hsorted := levelOrder_sorted nodes hwf
    rw [hdec, List.pairwise_append] at hsorted
    obtain ⟨_, hc, _⟩ := hsorted
    rw [List.pairwise_cons] at hc
    rcases List.mem_cons.mp h2 with rfl | h2b
    · exact lt_irrefl _ hdepth
    · have := hc.1 a h2b
      omega

theorem keyAt_of_shared (nodes : List TNode) (a : Nat)
    (hsh : sharedAt nodes a = true) :
    keyAt nodes a = Sum.inr (nameAt nodes a) := by
  unfold sharedAt at hsh
  unfold keyAt nameAt
  cases hg : nodes[a]? with
  | none =>
    simp only [hg] at hsh
    cases hsh
  | some n =>
    simp only [hg] at hsh ⊢
    simp [hsh]

theorem countOf_shared (nodes : List TNode) (reg : List (String × Nat))
    (a : Nat) (hsh : sharedAt nodes a = true) :
    countOf nodes reg a = countLookup reg (nameAt nodes a) := by
  unfold sharedAt at hsh
  unfold countOf nameAt
  cases hg : nodes[a]? with
  | none =>
    simp only [hg] at hsh
    cases hsh
  | some n =>
    simp only [hg] at hsh ⊢
    simp [hsh]

theorem timeStep_invoked (nodes : List TNode) (reg : List (String × Nat))
    (minRefs : Int) (minDur : Time) (oracle : String → Option ProcTiming)
    (st : TState) (i : Nat)
    (h : invokes nodes reg minRefs minDur st i = true) :
    timeStep nodes reg minRefs minDur oracle st i =
      st ++ [(keyAt nodes i, timed_run (oracle (nameAt nodes i)))] := by
  unfold timeStep
  rw [if_pos h]

theorem timeStep_skip (nodes : List TNode) (reg : List (String × Nat))
    (minRefs : Int) (minDur : Time) (oracle : String → Option ProcTiming)
    (st : TState) (i : Nat)
    (h : invokes nodes reg minRefs minDur st i = false) :
    timeStep nodes reg minRefs minDur oracle st i = st := by
  unfold timeStep
  rw [h]
  simp

theorem timeStep_fold_insertion (nodes : List TNode)
    (reg : List (String × Nat)) (minRefs : Int) (minDur : Time)
    (oracle : String → Option ProcTiming) :
    ∀ (l : List Nat) (st : TState) (k : Sum Nat String) (v : Timing),
      lookupKV st k = none →
      lookupKV (l.foldl (timeStep nodes reg minRefs minDur oracle) st) k =
        some v →
      ∃ l1 j l2, l = l1 ++ j :: l2 ∧ keyAt nodes j = k ∧
        invokes nodes reg minRefs minDur
          (l1.foldl (timeStep nodes reg minRefs minDur oracle) st) j = true := by
  intro l
  induction l with
  | nil =>
    intro st k v h0 h1
    rw [List.foldl_nil] at h1
    rw [h0] at h1
    cases h1
  | cons j rest ih =>
    intro st k v h0 h1
    rw [List.foldl_cons] at h1
    by_cases hch :
      lookupKV (timeStep nodes reg minRefs minDur oracle st j) k = none
    · obtain ⟨l1, j2, l2, hd, hk, hinv⟩ := ih _ k v hch h1
      refine ⟨j :: l1, j2, l2, by rw [hd]; rfl, hk, ?_⟩
      rw [List.foldl_cons]
      exact hinv
    · by_cases hj : invokes nodes reg minRefs minDur st j = true
      · have hkey : keyAt nodes j = k := by
          unfold timeStep at hch
          rw [if_pos hj] at hch
          simp only [lookupKV_append, h0] at hch
          by_contra hne
          apply hch
          have hne2 : ¬k = keyAt nodes j := fun h => hne h.symm
          simp [lookupKV, hne2]
        exact ⟨[], j, rest, rfl, hkey, hj⟩
      · exfalso
        apply hch
        unfold timeStep
        rw [if_neg hj]
        exact h0

theorem invokes_true_parts (nodes : List TNode) (reg : List (String × Nat))
    (minRefs : Int) (minDur : Time) (st : TState) (i : Nat)
    (h : invokes nodes reg minRefs minDur st i = true) :
    ¬((countOf nodes reg i : Int) < minRefs) ∧
      lookupKV st (keyAt nodes i) = none ∧
      filter_up nodes (fun j => cheapOk minDur (hdrTime nodes st j)) i =
        false := by
  unfold invokes at h
  rw [Bool.and_eq_true] at h
  obtain ⟨h1, h2⟩ := h
  rw [Bool.not_eq_true'] at h2
  rw [Bool.not_eq_true', Bool.or_eq_false_iff] at h1
  obtain ⟨h1a, h1b⟩ := h1
  refine ⟨by rwa [decide_eq_false_iff_not] at h1a, ?_, h2⟩
  unfold hdrTime at h1b
  cases hl : lookupKV st (keyAt nodes i) with
  | none => rfl
  | some v =>
    rw [hl] at h1b
    cases h1b

theorem invokes_false_of_filter_up (nodes : List TNode)
    (reg : List (String × Nat)) (minRefs : Int) (minDur : Time)
    (st : TState) (i : Nat)
    (h : filter_up nodes (fun j => cheapOk minDur (hdrTime nodes st j)) i =
      true) :
    invokes nodes reg minRefs minDur st i = false := by
  unfold invokes
  rw [h]
  simp

/-- Claim C4 (amended): if at the end of the timing pass header `H` is
measured-ok with cpu time below `min_duration`, then no node lying below a
node of `H` in any tree of the forest is itself independently timed: at
the level-order position of any such descendant node the timing-loop guard
is false, so no timing invocation happens at that visit. The descendant's
header, however, need not remain untimed: it can be measured through an
occurrence of the same identity elsewhere in the forest that is not below
any node of `H` (see the counterexample for the claim as stated). -/
theorem pruning_skips_descendant_visits
    (nodes : List TNode) (reg : List (String × Nat)) (minRefs : Int)
    (minDur : Time) (oracle : String → Option ProcTiming)
    (hwf : wfNodes nodes = true) (H : String) (t : Timing) (c : Time)
    (hfin :
      lookupKV (timePass nodes reg minRefs minDur oracle) (Sum.inr H) =
        some t)
    (h0 : t.status = 0) (hcpu : t.cpu = some c) (hlt : tltB c minDur = true)
    (L1 L2 : List Nat) (i : Nat)
    (hdec : levelOrder nodes = L1 ++ i :: L2)
    (a : Nat) (ha : a ∈ ancChain nodes i)
    (hsh : sharedAt nodes a = true) (hname : nameAt nodes a = H) :
    invokes nodes reg minRefs minDur
      (L1.foldl (timeStep nodes reg minRefs minDur oracle) []) i = false := by
  have hkeya : keyAt nodes a = Sum.inr H := by
    rw [keyAt_of_shared nodes a hsh, hname]
  have hfold : timePass nodes reg minRefs minDur oracle =
      (i :: L2).foldl (timeStep nodes reg minRefs minDur oracle)
        (L1.foldl (timeStep nodes reg minRefs minDur oracle) []) := by
    unfold timePass
    rw [hdec, List.foldl_append]
  cases hSt :
      lookupKV (L1.foldl (timeStep nodes reg minRefs minDur oracle) [])
        (Sum.inr H) with
  | some t2 =>
    have hpers := timeStep_fold_mono nodes reg minRefs minDur oracle
      (i :: L2) (L1.foldl (timeStep nodes reg minRefs minDur oracle) [])
      (Sum.inr H) t2 hSt
    rw [← hfold] at hpers
    have ht2 : t = t2 := Option.some.inj (hfin.symm.trans hpers)
    apply invokes_false_of_filter_up
    unfold filter_up
    rw [Bool.or_eq_true]
    right
    rw [List.any_eq_true]
    refine ⟨a, ha, ?_⟩
    unfold hdrTime
    rw [hkeya, hSt, ← ht2]
    unfold cheapOk
    simp [h0, hcpu, hlt]
  | none =>
    have hfin2 :
        lookupKV ((i :: L2).foldl (timeStep nodes reg minRefs minDur oracle)
            (L1.foldl (timeStep nodes reg minRefs minDur oracle) []))
          (Sum.inr H) = some t := by
      rw [← hfold]
      exact hfin
    obtain ⟨l1, j, l2, _hd, hkj, hinvj⟩ :=
      timeStep_fold_insertion nodes reg minRefs minDur oracle (i :: L2)
        (L1.foldl (timeStep nodes reg minRefs minDur oracle) [])
        (Sum.inr H) t hSt hfin2
    obtain ⟨hshj, hnamej⟩ := keyAt_inr nodes j H hkj
    have hcount : ¬((countLookup reg H : Int) < minRefs) := by
      have hparts := (invokes_true_parts nodes reg minRefs minDur _ j hinvj).1
      rwa [countOf_shared nodes reg j hshj, hnamej] at hparts
    have haL1 : a ∈ L1 := anc_in_earlier nodes hwf L1 L2 i a hdec ha
    obtain ⟨P, Q, hPQ⟩ := List.append_of_mem haL1
    have hstL1 : L1.foldl (timeStep nodes reg minRefs minDur oracle) [] =
        (a :: Q).foldl (timeStep nodes reg minRefs minDur oracle)
          (P.foldl (timeStep nodes reg minRefs minDur oracle) []) := by
      rw [hPQ, List.foldl_append]
    have hnoneP :
        lookupKV (P.foldl (timeStep nodes reg minRefs minDur oracle) [])
          (Sum.inr H) = none := by
      apply timeStep_fold_none nodes reg minRefs minDur oracle (a :: Q)
      rw [← hstL1]
      exact hSt
    have hinva : invokes nodes reg minRefs minDur
        (P.foldl (timeStep nodes reg minRefs minDur oracle) []) a = false := by
      cases hb : invokes nodes reg minRefs minDur
          (P.foldl (timeStep nodes reg minRefs minDur oracle) []) a with
      | false => rfl
      | true =>
        exfalso
        have hsome :
            lookupKV (timeStep nodes reg minRefs minDur oracle
                (P.foldl (timeStep nodes reg minRefs minDur oracle) []) a)
              (Sum.inr H) =
              some (timed_run (oracle (nameAt nodes a))) := by
          rw [timeStep_invoked nodes reg minRefs minDur oracle _ a hb]
          simp only [lookupKV_append, hnoneP]
          rw [hkeya]
          simp [lookupKV]
        have hmono := timeStep_fold_mono nodes reg minRefs minDur oracle Q _
          (Sum.inr H) _ hsome
        rw [hstL1, List.foldl_cons] at hSt
        rw [hmono] at hSt
        cases hSt
    have hfua : filter_up nodes
        (fun j2 => cheapOk minDur (hdrTime nodes
          (P.foldl (timeStep nodes reg minRefs minDur oracle) []) j2)) a =
        true := by
      unfold invokes at hinva
      have hA : decide ((countOf nodes reg a : Int) < minRefs) = false := by
        rw [decide_eq_false_iff_not, countOf_shared nodes reg a hsh, hname]
        exact hcount
      have hB : (hdrTime nodes
          (P.foldl (timeStep nodes reg minRefs minDur oracle) []) a).isSome =
          false := by
        unfold hdrTime
        rw [hkeya, hnoneP]
        rfl
      rw [hA, hB] at hinva
      simpa using hinva
    have hfa : cheapOk minDur (hdrTime nodes
        (P.foldl (timeStep nodes reg minRefs minDur oracle) []) a) = false := by
      unfold hdrTime
      rw [hkeya, hnoneP]
      rfl
    unfold filter_up at hfua
    rw [Bool.or_eq_true] at hfua
    rcases hfua with hfa2 | hany
    · simp only [] at hfa2
      rw [hfa] at hfa2
      cases hfa2
    · rw [List.any_eq_true] at hany
      obtain ⟨b, hbmem, hbcheap⟩ := hany
      cases htb :
          lookupKV (P.foldl (timeStep nodes reg minRefs minDur oracle) [])
            (keyAt nodes b) with
      | none =>
        unfold hdrTime at hbcheap
        rw [htb] at hbcheap
        simp [cheapOk] at hbcheap
      | some tb =>
        have hmono := timeStep_fold_mono nodes reg minRefs minDur oracle
          (a :: Q) (P.foldl (timeStep nodes reg minRefs minDur oracle) [])
          (keyAt nodes b) tb htb
        have hbcheap1 : cheapOk minDur (hdrTime nodes
            (L1.foldl (timeStep nodes reg minRefs minDur oracle) []) b) =
            true := by
          unfold hdrTime
          rw [hstL1, hmono]
          unfold hdrTime at hbcheap
          rw [htb] at hbcheap
          exact hbcheap
        apply invokes_false_of_filter_up
        unfold filter_up
        rw [Bool.or_eq_true]
        right
        rw [List.any_eq_true]
        exact ⟨b, ancChain_trans nodes i a b ha hbmem, hbcheap1⟩

/-- Timing oracle for the claim C4 counterexample: measuring header `H`
succeeds with cpu time 1/20, measuring any other header succeeds with cpu
time 1. -/
def cx4oracle : String → Option ProcTiming := fun h =>
  if h = ("H") then some ⟨0, ⟨1, 20⟩, ⟨1, 20⟩, ⟨0, 1⟩, ⟨0, 1⟩, ⟨0, 1⟩, ⟨0, 1⟩⟩
  else some ⟨0, ⟨1, 1⟩, ⟨1, 1⟩, ⟨0, 1⟩, ⟨0, 1⟩, ⟨0, 1⟩, ⟨0, 1⟩⟩

/-- Traces for the claim C4 counterexample: `a.cpp` includes `H`, which
includes `X`; `b.cpp` includes `X` directly. -/
def cx4traces : List (String × Option String) :=
  [(("a.cpp"), some (". H\n.. X")), (("b.cpp"), some (". X"))]

/-- The claim C4 counterexample run: `min_refs = 1`,
`min_duration = 1/10`. -/
def cx4out : AnalysisOut :=
  match act_header cx4oracle cx4traces ⟨1, ⟨1, 10⟩, ⟨90, 1⟩⟩ with
  | Except.ok o => o
  | Except.error _ => ⟨[], [], [], []⟩

/-- Counterexample to claim C4 as stated: in the run `cx4out`, header `H`
ends measured-ok with cpu time 1/20 below the minimum duration 1/10, node
3 (an occurrence of header `X`) is a descendant of node 2 (an occurrence
of `H`), and yet `X`'s status does not remain untimed: its header is
measured-ok, having been timed at its other occurrence (node 5, directly
under `b.cpp`, outside every subtree of `H`). -/
theorem pruning_descendant_header_timed_cx :
    cheapOk ⟨1, 10⟩ (lookupKV cx4out.times (Sum.inr ("H"))) = true ∧
      2 ∈ ancChain cx4out.nodes 3 ∧
      sharedAt cx4out.nodes 2 = true ∧ nameAt cx4out.nodes 2 = ("H") ∧
      sharedAt cx4out.nodes 3 = true ∧ nameAt cx4out.nodes 3 = ("X") ∧
      okAt cx4out.nodes cx4out.times 3 = true ∧
      lookupKV cx4out.times (Sum.inr ("X")) ≠ none := by
  decide

/-- Witness for claim C4 (amended) on the concrete run `cx4out`: node 3
(header `X`, lying under node 2 of the cheap measured-ok header `H`) is
not independently timed at its level-order visit. -/
theorem pruning_skips_descendant_visits_witness :
    invokes cx4out.nodes cx4out.reg 1 ⟨1, 10⟩
      ([0, 1, 4, 2, 5].foldl
        (timeStep cx4out.nodes cx4out.reg 1 ⟨1, 10⟩ cx4oracle) []) 3 =
      false :=
  pruning_skips_descendant_visits cx4out.nodes cx4out.reg 1 ⟨1, 10⟩ cx4oracle
    (by decide) ("H")
    ⟨0, some ⟨1, 20⟩, some ⟨1, 20⟩, some ⟨0, 1⟩, some ⟨0, 1⟩, some ⟨0, 1⟩,
      some ⟨0, 1⟩, some ⟨1, 20⟩⟩
    ⟨1, 20⟩ (by decide) rfl rfl (by decide)
    [0, 1, 4, 2, 5] [] 3 (by decide) 2 (by decide) (by decide) (by decide)

/-- The invariant asserted by claim C5, as a decidable check: no two
distinct common-set member identities occur at forest nodes standing in
ancestor/descendant relation. -/
def noAncestorPairB (nodes : List TNode) (common : List String) : Bool :=
  (List.range nodes.length).all (fun j =>
    (ancChain nodes j).all (fun a =>
      !(sharedAt nodes j && sharedAt nodes a &&
        !(nameAt nodes j == nameAt nodes a) &&
        decide (nameAt nodes j ∈ common) &&
        decide (nameAt nodes a ∈ common))))

/-- Timing oracle for the claim C5 counterexample: measuring `B` fails;
measuring any other header succeeds with cpu time 1. -/
def cx5oracle : String → Option ProcTiming := fun h =>
  if h = ("B") then none
  else some ⟨0, ⟨1, 1⟩, ⟨1, 1⟩, ⟨0, 1⟩, ⟨0, 1⟩, ⟨0, 1⟩, ⟨0, 1⟩⟩

/-- Trace for the claim C5 counterexample: one source whose headers `A`
and `B` each include `D`. -/
def cx5traces : List (String × Option String) :=
  [(("s.cpp"), some (". A\n.. D\n. B\n.. D"))]

/-- The claim C5 counterexample run: `min_refs = 1`, `min_duration = 1/10`,
`common_pct = 90`. -/
def cx5out : AnalysisOut :=
  match act_header cx5oracle cx5traces ⟨1, ⟨1, 10⟩, ⟨90, 1⟩⟩ with
  | Except.ok o => o
  | Except.error _ => ⟨[], [], [], []⟩

/-- Counterexample to claim C5 as stated: in the run `cx5out` the common
set is `{A, D}` — `D` is blocked at its occurrence below `A` (node 3) but
added at its occurrence below the unmeasured `B` (node 5) — yet node 2
(`A`) is an ancestor of node 3 (`D`) in the same source tree, so the
common set does contain two members in ancestor/descendant relation. -/
theorem common_ancestor_pair_cx :
    cx5out.common = [("D"), ("A")] ∧
      2 ∈ ancChain cx5out.nodes 3 ∧
      sharedAt cx5out.nodes 2 = true ∧ nameAt cx5out.nodes 2 = ("A") ∧
      sharedAt cx5out.nodes 3 = true ∧ nameAt cx5out.nodes 3 = ("D") ∧
      noAncestorPairB cx5out.nodes cx5out.common = false := by
  decide

/-- Claim C5 (amended): an identity is added to the common set only if its
header is measured-ok, its cpu time is at least the minimum duration, its
reference count is at least the absolute threshold
`common_pct × #sources / 100`, and neither the node's own identity nor any
ancestor's identity is already in the set at that moment. (The claim's
stronger global invariant — no two members ever in ancestor/descendant
relation within a source tree — does not hold; see the counterexample.) -/
theorem common_add_qualification (nodes : List TNode)
    (reg : List (String × Nat)) (minDur commonMin : Time) (st : TState)
    (common : List String) (i : Nat)
    (h : commonStep nodes reg minDur commonMin st common i ≠ common) :
    okAt nodes st i = true ∧
      tleB commonMin (Time.ofInt (countOf nodes reg i)) = true ∧
      tleB minDur (cpuValAt nodes st i) = true ∧
      (nameAt nodes i ∈ common → False) ∧
      (∀ a ∈ ancChain nodes i, nameAt nodes a ∈ common → False) ∧
      commonStep nodes reg minDur commonMin st common i =
        nameAt nodes i :: common := by
  by_cases hcond : (okAt nodes st i &&
      tleB commonMin (Time.ofInt (countOf nodes reg i)) &&
      tleB minDur (cpuValAt nodes st i) &&
      !(filter_up nodes (fun j => decide (nameAt nodes j ∈ common)) i)) =
      true
  · have hstep : commonStep nodes reg minDur commonMin st common i =
        nameAt nodes i :: common := by
      unfold commonStep
      rw [if_pos hcond]
    simp only [Bool.and_eq_true] at hcond
    obtain ⟨⟨⟨hok, hcnt⟩, hcpu2⟩, hfu⟩ := hcond
    rw [Bool.not_eq_true'] at hfu
    unfold filter_up at hfu
    rw [Bool.or_eq_false_iff] at hfu
    obtain ⟨hself, hany⟩ := hfu
    rw [List.any_eq_false] at hany
    refine ⟨hok, hcnt, hcpu2, ?_, ?_, hstep⟩
    · intro hmem
      simp only [decide_eq_false_iff_not] at hself
      exact hself hmem
    · intro a hamem hmem
      have hfa := hany a hamem
      exact hfa (decide_eq_true hmem)
  · exfalso
    apply h
    unfold commonStep
    rw [if_neg hcond]

/-- Witness for claim C5 (amended) at a concrete addition: a measured-ok
node `A` with count 1 qualifying against `common_min = 9/10`,
`min_duration = 1/10` and an empty common set. -/
theorem common_add_qualification_witness :
    okAt [⟨("root"), none, false⟩, ⟨("s.cpp"), some 0, false⟩,
        ⟨("A"), some 1, true⟩]
        [(Sum.inr ("A"),
          ⟨0, none, none, none, none, none, none, some ⟨1, 1⟩⟩)] 2 = true ∧
      tleB ⟨9, 10⟩
        (Time.ofInt (countOf
          [⟨("root"), none, false⟩, ⟨("s.cpp"), some 0, false⟩,
            ⟨("A"), some 1, true⟩] [(("A"), 1)] 2)) = true ∧
      tleB ⟨1, 10⟩
        (cpuValAt [⟨("root"), none, false⟩, ⟨("s.cpp"), some 0, false⟩,
          ⟨("A"), some 1, true⟩]
          [(Sum.inr ("A"),
            ⟨0, none, none, none, none, none, none, some ⟨1, 1⟩⟩)] 2) =
        true ∧
      (nameAt [⟨("root"), none, false⟩, ⟨("s.cpp"), some 0, false⟩,
          ⟨("A"), some 1, true⟩] 2 ∈ ([] : List String) → False) ∧
      (∀ a ∈ ancChain [⟨("root"), none, false⟩, ⟨("s.cpp"), some 0, false⟩,
          ⟨("A"), some 1, true⟩] 2,
        nameAt [⟨("root"), none, false⟩, ⟨("s.cpp"), some 0, false⟩,
          ⟨("A"), some 1, true⟩] a ∈ ([] : List String) → False) ∧
      commonStep [⟨("root"), none, false⟩, ⟨("s.cpp"), some 0, false⟩,
          ⟨("A"), some 1, true⟩] [(("A"), 1)] ⟨1, 10⟩ ⟨9, 10⟩
        [(Sum.inr ("A"),
          ⟨0, none, none, none, none, none, none, some ⟨1, 1⟩⟩)] [] 2 =
        nameAt [⟨("root"), none, false⟩, ⟨("s.cpp"), some 0, false⟩,
          ⟨("A"), some 1, true⟩] 2 :: [] :=
  common_add_qualification
    [⟨("root"), none, false⟩, ⟨("s.cpp"), some 0, false⟩,
      ⟨("A"), some 1, true⟩]
    [(("A"), 1)] ⟨1, 10⟩ ⟨9, 10⟩
    [(Sum.inr ("A"), ⟨0, none, none, none, none, none, none, some ⟨1, 1⟩⟩)]
    [] 2 (by decide)

end CProf
